import Mathlib

/-!
# Verification of zashboard's topology-chart aggregator and settings navigation

Shallow embedding of the two source files:

* `src/components/overview/TopologyCharts.vue` — the `sankeyData` connection
  aggregator and the `getNodeTypeName` reverse role lookup;
* the settings-page component — swipe menu cycling (`getNextMenuKey`,
  `getPrevMenuKey`), the visibility map mutated by intersection-observer
  callbacks, the `updateActiveMenuByVisibility` decision, the
  `debouncedUpdateActiveMenu` timer, and `setupIntersectionObservers`.

JavaScript `Map` objects are modelled as insertion-ordered association lists
(`List (α × β)`): `Map.get` is `aGet`, `Map.set` is `aSet` (in-place update of
an existing key, append for a new one — exactly the iteration-order semantics
of `Map.set`), `Map.delete` is `aDelete`.  Visibility ratios are modelled as
exact rationals (the source compares IEEE doubles, but every comparison in
scope is between values representable in the model, applied to the same
arithmetic-free data).
-/

namespace Zashboard

/-- JS `Map.get`, on an insertion-ordered association list. -/
def aGet {α β : Type} [DecidableEq α] : List (α × β) → α → Option β
  | [], _ => none
  | (k, v) :: rest, k' => if k = k' then some v else aGet rest k'

/-- JS `Map.set`: overwrite the entry in place when the key is present,
append at the end when it is new. -/
def aSet {α β : Type} [DecidableEq α] : List (α × β) → α → β → List (α × β)
  | [], k, v => [(k, v)]
  | (k', v') :: rest, k, v =>
    if k' = k then (k, v) :: rest else (k', v') :: aSet rest k v

/-- JS `Map.delete`: remove the entry with the given key. -/
def aDelete {α β : Type} [DecidableEq α] : List (α × β) → α → List (α × β)
  | [], _ => []
  | (k', v) :: rest, k =>
    if k' = k then aDelete rest k else (k', v) :: aDelete rest k

/-! ## Flow graph aggregator (`TopologyCharts.vue`) -/

/-- A connection record as consumed by `sankeyData`.  `metadata.sourceIP` is
flattened into `sourceIP`; the empty string encodes a missing/empty value,
which is what the JS falsiness checks (`|| 'Unknown'`, `conn.rulePayload ?`)
react to.  A missing `chains` array (`conn.chains || []`) is the empty list. -/
structure Conn where
  sourceIP : String
  rule : String
  rulePayload : String
  chains : List String
deriving DecidableEq, Repr

/-- `conn.metadata.sourceIP || 'Unknown'`. -/
def effSourceIP (c : Conn) : String :=
  if c.sourceIP = "" then "Unknown" else c.sourceIP

/-- `conn.rulePayload ? `${conn.rule}: ${conn.rulePayload}` : conn.rule`. -/
def effRule (c : Conn) : String :=
  if c.rulePayload = "" then c.rule else c.rule ++ ": " ++ c.rulePayload

/-- The mutable state threaded through `connections.forEach` in `sankeyData`:
`nodeMap` (name → id), `layerMap` (name → layer), the running `nodeIndex`,
and `linkMap`.  The source keys `linkMap` by the string `` `${source}-${target}` ``;
decimal numerals contain no dash, so that key is in bijection with the ordered
id pair and we key by the pair directly. -/
structure AggState where
  nodeMap : List (String × Nat)
  layerMap : List (String × Nat)
  nodeIndex : Nat
  linkMap : List ((Nat × Nat) × Nat)
deriving Repr

def initAggState : AggState := ⟨[], [], 0, []⟩

/-- The `addNode` closure: reuse the id of a known name, otherwise register
the name with the next dense id and fix its layer. -/
def addNode (st : AggState) (name : String) (layer : Nat) : Nat × AggState :=
  match aGet st.nodeMap name with
  | some i => (i, st)
  | none =>
    (st.nodeIndex,
      { nodeMap := aSet st.nodeMap name st.nodeIndex
        layerMap := aSet st.layerMap name layer
        nodeIndex := st.nodeIndex + 1
        linkMap := st.linkMap })

/-- `linkMap.set(key, (linkMap.get(key) || 0) + 1)`. -/
def bumpLink (m : List ((Nat × Nat) × Nat)) (k : Nat × Nat) :
    List ((Nat × Nat) × Nat) :=
  aSet m k ((aGet m k).getD 0 + 1)

/-- The body of `connections.forEach` in `sankeyData`: skip records with an
empty chain, register the four role nodes, then bump the three edges
source→rule, rule→chainLast, chainLast→chainFirst. -/
def processConn (st : AggState) (c : Conn) : AggState :=
  if c.chains.isEmpty then st
  else
    let sourceIP := effSourceIP c
    let rulePayload := effRule c
    let chainLast := c.chains.getLastD ""
    let chainFirst := c.chains.headD ""
    let r1 := addNode st sourceIP 0
    let r2 := addNode r1.2 rulePayload 1
    let r3 := addNode r2.2 chainLast 2
    let r4 := addNode r3.2 chainFirst 3
    let st4 := r4.2
    let m1 := bumpLink st4.linkMap (r1.1, r2.1)
    let m2 := bumpLink m1 (r2.1, r3.1)
    let m3 := bumpLink m2 (r3.1, r4.1)
    { st4 with linkMap := m3 }

/-- The aggregation state after the whole `forEach` pass. -/
def aggState (connections : List Conn) : AggState :=
  connections.foldl processConn initAggState

/-- An output node: `{ id, name, itemStyle: { color } }`. -/
structure SNode where
  id : Nat
  name : String
  color : String
deriving DecidableEq, Repr

/-- An output link: `{ source, target, value }`. -/
structure SLink where
  source : Nat
  target : Nat
  value : Nat
deriving DecidableEq, Repr

structure SankeyData where
  nodes : List SNode
  links : List SLink
deriving DecidableEq, Repr

def layerColors : List String := ["#5470c6", "#91cc75", "#fac858", "#ee6666"]

/-- The `sankeyData` computed property: early-return the empty graph on an
empty connection list, otherwise run the `forEach` pass and project the maps
to node and link arrays (in `Map` iteration order).  The node color is
`layerColors[layerMap.get(name) || 0]`. -/
def sankeyData (connections : List Conn) : SankeyData :=
  if connections.isEmpty then ⟨[], []⟩
  else
    let st := aggState connections
    let nodes := st.nodeMap.map fun p =>
      ⟨p.2, p.1, layerColors.getD ((aGet st.layerMap p.1).getD 0) ""⟩
    let links := st.linkMap.map fun p => ⟨p.1.1, p.1.2, p.2⟩
    ⟨nodes, links⟩

/-- The five translated labels `getNodeTypeName` can return. -/
inductive RoleLabel where
  | sourceIPAddress
  | ruleMatch
  | proxyChainEntry
  | proxyChainExit
  | unknownRole
deriving DecidableEq, Repr

/-- The `for (const conn of connections)` loop of `getNodeTypeName`:
records with an empty chain are skipped; within a record the checks run in
the fixed order source IP, rule label, last chain element
(labelled `proxyChainEntry` in the source), first chain element
(labelled `proxyChainExit`). -/
def nodeTypeLoop (name : String) : List Conn → RoleLabel
  | [] => .unknownRole
  | conn :: rest =>
    if conn.chains.isEmpty then nodeTypeLoop name rest
    else
      let sourceIP := effSourceIP conn
      let rulePayload := effRule conn
      let chainLast := conn.chains.getLastD ""
      let chainFirst := conn.chains.headD ""
      if name = sourceIP then .sourceIPAddress
      else if name = rulePayload then .ruleMatch
      else if name = chainLast then .proxyChainEntry
      else if name = chainFirst then .proxyChainExit
      else nodeTypeLoop name rest

/-- `getNodeTypeName`: early-return `unknown` on an empty connection list,
otherwise scan the list. -/
def getNodeTypeName (connections : List Conn) (name : String) : RoleLabel :=
  if connections.isEmpty then .unknownRole
  else nodeTypeLoop name connections

/-! ## Settings page: menu cycling, visibility map, debounce -/

/-- The `MenuKey` enum of the settings page. -/
inductive MenuKey where
  | general
  | backend
  | proxies
  | connections
  | overview
deriving DecidableEq, Repr

/-- `menuItems.findIndex((item) => item.key === activeMenuKey.value)`,
returning `none` for JS's `-1`. -/
def findMenuIndex (keys : List MenuKey) (active : MenuKey) : Option Nat :=
  match keys with
  | [] => none
  | k :: rest =>
    if k = active then some 0 else (findMenuIndex rest active).map (· + 1)

/-- `getNextMenuKey`: when the active key is found, activate the key at
`(currentIndex + 1) % length`; when it is not found the function returns
early and the active key is unchanged. -/
def getNextMenuKey (keys : List MenuKey) (active : MenuKey) : MenuKey :=
  match findMenuIndex keys active with
  | none => active
  | some i => keys.getD ((i + 1) % keys.length) active

/-- `getPrevMenuKey`: activate the key at `(currentIndex - 1 + length) % length`.
The source computes that index over JS numbers; since `currentIndex ≥ 0` and
`length ≥ 1` the operand is non-negative and equals `i + length - 1` in `Nat`. -/
def getPrevMenuKey (keys : List MenuKey) (active : MenuKey) : MenuKey :=
  match findMenuIndex keys active with
  | none => active
  | some i => keys.getD ((i + keys.length - 1) % keys.length) active

/-- The body of the `visibilityRatios.value.forEach` scan: only a ratio
strictly greater than the running maximum advances it. -/
def visStep (acc : ℚ × Option MenuKey) (e : MenuKey × ℚ) :
    ℚ × Option MenuKey :=
  if e.2 > acc.1 then (e.2, some e.1) else acc

/-- `updateActiveMenuByVisibility`, lines 211–226: scan `visibilityRatios` in
`Map` iteration order keeping a running maximum, then return the winner when
one exists and its ratio is `>= 0.3`; `none` means the active menu is left
unchanged.  The surrounding middle-screen and container guards are
environmental and modelled as satisfied. -/
def updateActiveMenuByVisibility (ratios : List (MenuKey × ℚ)) :
    Option MenuKey :=
  let p := ratios.foldl visStep ((0 : ℚ), (none : Option MenuKey))
  match p.2 with
  | some k => if p.1 ≥ 3/10 then some k else none
  | none => none

/-- The map mutation of the intersection-observer callback, lines 260–267:
a ratio strictly above zero is stored (overwriting any prior value), any
other ratio deletes the key. -/
def applyIntersectionEntry (m : List (MenuKey × ℚ)) (key : MenuKey) (ratio : ℚ) :
    List (MenuKey × ℚ) :=
  if ratio > 0 then aSet m key ratio else aDelete m key

/-- The timed state of the settings page: the clock, `visibilityRatios`, the
`updateTimer` (as the absolute time at which the pending timeout fires, if
any), the log of recomputations the timer has performed (each entry is the
map snapshot the recomputation read), and `activeMenuKey`. -/
structure TimedState where
  now : Nat
  ratios : List (MenuKey × ℚ)
  pending : Option Nat
  recomputed : List (List (MenuKey × ℚ))
  active : MenuKey
deriving DecidableEq, Repr

def initState (a : MenuKey) : TimedState := ⟨0, [], none, [], a⟩

/-- Run the pending timeout if its deadline has been reached by time `t`:
the callback calls `updateActiveMenuByVisibility` (recorded as a snapshot of
the current map, applied to `activeMenuKey`) and nulls `updateTimer`. -/
def fireIfDue (s : TimedState) (t : Nat) : TimedState :=
  match s.pending with
  | none => s
  | some d =>
    if d ≤ t then
      { s with
        pending := none
        recomputed := s.recomputed ++ [s.ratios]
        active := (updateActiveMenuByVisibility s.ratios).getD s.active }
    else s

/-- `debouncedUpdateActiveMenu`: clear any pending timeout and schedule a new
one 100 time units from now.  `updateTimer` is a single variable, so at most
one timeout is ever pending. -/
def debouncedUpdateActiveMenu (s : TimedState) (t : Nat) : TimedState :=
  { s with now := t, pending := some (t + 100) }

/-- One intersection-observer event at time `t`: any timeout due strictly
before the event has already fired; then the callback updates
`visibilityRatios` and calls `debouncedUpdateActiveMenu`. -/
def stepEvent (s : TimedState) (ev : Nat × MenuKey × ℚ) : TimedState :=
  let s1 := fireIfDue s ev.1
  let s2 := { s1 with ratios := applyIntersectionEntry s1.ratios ev.2.1 ev.2.2 }
  debouncedUpdateActiveMenu s2 ev.1

/-- A whole trace of observer events from the initial state. -/
def runTrace (a : MenuKey) (events : List (Nat × MenuKey × ℚ)) : TimedState :=
  events.foldl stepEvent (initState a)

/-- Let the clock run to infinity: a still-pending timeout fires. -/
def flushTimer (s : TimedState) : TimedState :=
  match s.pending with
  | none => s
  | some _ =>
    { s with
      pending := none
      recomputed := s.recomputed ++ [s.ratios]
      active := (updateActiveMenuByVisibility s.ratios).getD s.active }

/-- `setupIntersectionObservers`, lines 244–250: stop the old observers and
clear `visibilityRatios`.  The observer handles are outside the model; note
that the function does not touch `updateTimer`. -/
def setupIntersectionObservers (s : TimedState) : TimedState :=
  { s with ratios := [] }

/-- The event times all fall inside consecutive 100-unit quiet intervals:
each event arrives no earlier than the previous one and strictly before the
previous event's timeout deadline. -/
def withinQuiet : Nat → List (Nat × MenuKey × ℚ) → Prop
  | _, [] => True
  | t, e :: es => (t ≤ e.1 ∧ e.1 < t + 100) ∧ withinQuiet e.1 es

def withinQuietDecidable :
    (t : Nat) → (es : List (Nat × MenuKey × ℚ)) → Decidable (withinQuiet t es)
  | _, [] => .isTrue trivial
  | t, e :: es =>
    haveI : Decidable (withinQuiet e.1 es) := withinQuietDecidable e.1 es
    inferInstanceAs (Decidable ((t ≤ e.1 ∧ e.1 < t + 100) ∧ withinQuiet e.1 es))

instance (t : Nat) (es : List (Nat × MenuKey × ℚ)) :
    Decidable (withinQuiet t es) :=
  withinQuietDecidable t es

/-- Fold a list of key/ratio observations into a map. -/
def applyAll (events : List (Nat × MenuKey × ℚ)) : List (MenuKey × ℚ) :=
  events.foldl (fun m e => applyIntersectionEntry m e.2.1 e.2.2) []

/-! ## Claim-side definitions and demo inputs -/

/-- The reverse role lookup exactly as the claim words it: the same
first-match scan, but with the LAST chain element mapped to the chain-exit
role and the FIRST chain element mapped to the chain-entry role.  To be
compared with `getNodeTypeName`, which labels them the other way around. -/
def specRoleOf (name : String) : List Conn → RoleLabel
  | [] => .unknownRole
  | conn :: rest =>
    if conn.chains.isEmpty then specRoleOf name rest
    else
      let sourceIP := effSourceIP conn
      let rulePayload := effRule conn
      let chainLast := conn.chains.getLastD ""
      let chainFirst := conn.chains.headD ""
      if name = sourceIP then .sourceIPAddress
      else if name = rulePayload then .ruleMatch
      else if name = chainLast then .proxyChainExit
      else if name = chainFirst then .proxyChainEntry
      else specRoleOf name rest

/-- The role a single record assigns to a name, in the record's fixed check
order, with the labelling `getNodeTypeName` actually uses (last chain
element ↦ `proxyChainEntry`, first ↦ `proxyChainExit`); `none` when the
record has an empty chain or none of its four names matches. -/
def connRole (c : Conn) (name : String) : Option RoleLabel :=
  if c.chains.isEmpty then none
  else if name = effSourceIP c then some .sourceIPAddress
  else if name = effRule c then some .ruleMatch
  else if name = c.chains.getLastD "" then some .proxyChainEntry
  else if name = c.chains.headD "" then some .proxyChainExit
  else none

/-- The number of records whose chain is exactly the one-element list
`[name]`. -/
def countSingleton (conns : List Conn) (name : String) : Nat :=
  conns.countP fun c => c.chains = [name]

/-- The value the link map holds for an ordered id pair (0 when absent). -/
def linkVal (st : AggState) (k : Nat × Nat) : Nat :=
  (aGet st.linkMap k).getD 0

/-- Well-formedness of the node registry: the ids in insertion order are
exactly `0, 1, …, nodeIndex - 1`, and no name occurs twice. -/
def nodesWF (st : AggState) : Prop :=
  st.nodeMap.map Prod.snd = List.range st.nodeIndex ∧
    (st.nodeMap.map Prod.fst).Nodup

/-- Demo record: source `src`, rule `r`, single-hop chain `p`. -/
def connA : Conn := ⟨"src", "r", "", ["p"]⟩

/-- Demo record touching a disjoint set of names. -/
def connB : Conn := ⟨"src2", "r2", "", ["p2"]⟩

/-- Demo record whose source, rule and single chain hop are all the string
`x`, so all three of its edges land on the same ordered pair. -/
def connX : Conn := ⟨"x", "x", "", ["x"]⟩

/-- Demo record in which the name `X` first appears as a rule label. -/
def recRuleX : Conn := ⟨"s", "X", "", ["c"]⟩

/-- Demo record in which the same name `X` later appears as a chain element. -/
def recChainX : Conn := ⟨"s2", "r2", "", ["X", "z"]⟩

/-- Demo record with a two-hop chain, for the role lookup. -/
def recTwoHop : Conn := ⟨"1.2.3.4", "r", "", ["a", "b"]⟩

/-- The menu key list in display order when the overview page is split off. -/
def demoKeys : List MenuKey :=
  [.general, .backend, .proxies, .connections, .overview]

/-! ## Association-list lemmas -/

variable {α β : Type} [DecidableEq α]

theorem aGet_aSet_self (m : List (α × β)) (k : α) (v : β) :
    aGet (aSet m k v) k = some v := by
  induction m with
  | nil => simp [aSet, aGet]
  | cons p rest ih =>
    obtain ⟨k', v'⟩ := p
    by_cases h : k' = k
    · simp [aSet, aGet, h]
    · simp [aSet, aGet, h, ih]

theorem aGet_aSet_ne (m : List (α × β)) {k k' : α} (v : β) (h : k' ≠ k) :
    aGet (aSet m k v) k' = aGet m k' := by
  induction m with
  | nil => simp [aSet, aGet, Ne.symm h]
  | cons p rest ih =>
    obtain ⟨k₀, v₀⟩ := p
    by_cases h0 : k₀ = k
    · subst h0
      simp [aSet, aGet, Ne.symm h]
    · simp [aSet, aGet, h0, ih]

theorem aSet_of_aGet_none {m : List (α × β)} {k : α} (h : aGet m k = none)
    (v : β) : aSet m k v = m ++ [(k, v)] := by
  induction m with
  | nil => simp [aSet]
  | cons p rest ih =>
    obtain ⟨k₀, v₀⟩ := p
    by_cases h0 : k₀ = k
    · simp [aGet, h0] at h
    · simp [aGet, h0] at h
      simp [aSet, h0, ih h]

theorem aGet_none_not_mem_keys {m : List (α × β)} {k : α}
    (h : aGet m k = none) : k ∉ m.map Prod.fst := by
  induction m with
  | nil => simp
  | cons p rest ih =>
    obtain ⟨k₀, v₀⟩ := p
    by_cases h0 : k₀ = k
    · simp [aGet, h0] at h
    · simp [aGet, h0] at h
      simpa [h0, ih h] using fun hk => h0 hk.symm

theorem aGet_mem {m : List (α × β)} {k : α} {v : β}
    (h : aGet m k = some v) : (k, v) ∈ m := by
  induction m with
  | nil => simp [aGet] at h
  | cons p rest ih =>
    obtain ⟨k₀, v₀⟩ := p
    by_cases h0 : k₀ = k
    · subst h0
      simp [aGet] at h
      simp [h]
    · simp [aGet, h0] at h
      simp [ih h]

theorem mem_aSet {m : List (α × β)} {k : α} {v : β} {p : α × β}
    (h : p ∈ aSet m k v) : p = (k, v) ∨ p ∈ m := by
  induction m with
  | nil => simpa [aSet] using h
  | cons q rest ih =>
    obtain ⟨k₀, v₀⟩ := q
    by_cases h0 : k₀ = k
    · simp [aSet, h0] at h
      rcases h with h | h
      · exact .inl h
      · exact .inr (by simp [h])
    · simp [aSet, h0] at h
      rcases h with h | h
      · exact .inr (by simp [h])
      · rcases ih h with h' | h'
        · exact .inl h'
        · exact .inr (by simp [h'])

theorem mem_aDelete {m : List (α × β)} {k : α} {p : α × β}
    (h : p ∈ aDelete m k) : p ∈ m := by
  induction m with
  | nil => simp [aDelete] at h
  | cons q rest ih =>
    obtain ⟨k₀, v₀⟩ := q
    by_cases h0 : k₀ = k
    · simp only [aDelete, if_pos h0] at h
      exact List.mem_cons_of_mem _ (ih h)
    · simp only [aDelete, if_neg h0, List.mem_cons] at h
      rcases h with h | h
      · simp [h]
      · exact List.mem_cons_of_mem _ (ih h)

theorem aGet_aDelete_self (m : List (α × β)) (k : α) :
    aGet (aDelete m k) k = none := by
  induction m with
  | nil => simp [aDelete, aGet]
  | cons q rest ih =>
    obtain ⟨k₀, v₀⟩ := q
    by_cases h0 : k₀ = k
    · simp [aDelete, h0, ih]
    · simp [aDelete, aGet, h0, ih]

theorem keys_aSet (m : List (α × β)) (k : α) (v : β) :
    (aSet m k v).map Prod.fst =
      if k ∈ m.map Prod.fst then m.map Prod.fst
      else m.map Prod.fst ++ [k] := by
  induction m with
  | nil => simp [aSet]
  | cons q rest ih =>
    obtain ⟨k₀, v₀⟩ := q
    by_cases h0 : k₀ = k
    · simp [aSet, h0]
    · by_cases hk : k ∈ rest.map Prod.fst
      · simp [aSet, h0, ih, hk, Ne.symm h0]
      · simp [aSet, h0, ih, hk, Ne.symm h0]

theorem keys_aSet_nodup {m : List (α × β)} (h : (m.map Prod.fst).Nodup)
    (k : α) (v : β) : ((aSet m k v).map Prod.fst).Nodup := by
  rw [keys_aSet]
  by_cases hk : k ∈ m.map Prod.fst
  · simpa [hk] using h
  · simp only [hk, if_false]
    simp [List.nodup_append, h, hk]

/-! ## Aggregator lemmas -/

theorem addNode_linkMap (st : AggState) (n : String) (l : Nat) :
    ((addNode st n l).2).linkMap = st.linkMap := by
  unfold addNode
  split <;> rfl

theorem addNode_of_aGet_some {st : AggState} {n : String} {i : Nat}
    (h : aGet st.nodeMap n = some i) (l : Nat) : addNode st n l = (i, st) := by
  unfold addNode
  split
  · next j hj =>
    rw [hj] at h
    simp at h
    simp [h]
  · next hj => rw [hj] at h; simp at h

theorem addNode_aGet_self (st : AggState) (n : String) (l : Nat) :
    aGet ((addNode st n l).2).nodeMap n = some ((addNode st n l).1) := by
  unfold addNode
  split
  · next j hj => simpa using hj
  · next hj => simp [aGet_aSet_self]

theorem addNode_preserve {st : AggState} {n : String} {i : Nat}
    (h : aGet st.nodeMap n = some i) (m : String) (l : Nat) :
    aGet ((addNode st m l).2).nodeMap n = some i := by
  unfold addNode
  split
  · exact h
  · next hnone =>
    have hne : n ≠ m := by
      intro he
      rw [he, hnone] at h
      exact Option.noConfusion h
    show aGet (aSet st.nodeMap m st.nodeIndex) n = some i
    rw [aGet_aSet_ne st.nodeMap st.nodeIndex hne]
    exact h

theorem aGet_bumpLink_self (m : List ((Nat × Nat) × Nat)) (k : Nat × Nat) :
    aGet (bumpLink m k) k = some ((aGet m k).getD 0 + 1) :=
  aGet_aSet_self m k _

theorem aGet_bumpLink_ne (m : List ((Nat × Nat) × Nat)) {k k' : Nat × Nat}
    (h : k' ≠ k) : aGet (bumpLink m k) k' = aGet m k' :=
  aGet_aSet_ne m _ h

theorem val_bumpLink_le (m : List ((Nat × Nat) × Nat)) (k k' : Nat × Nat) :
    (aGet m k').getD 0 ≤ (aGet (bumpLink m k) k').getD 0 := by
  by_cases h : k' = k
  · subst h
    rw [aGet_bumpLink_self]
    simp
  · rw [aGet_bumpLink_ne m h]

theorem processConn_nodeGet_preserve {st : AggState} {n : String} {i : Nat}
    (h : aGet st.nodeMap n = some i) (c : Conn) :
    aGet (processConn st c).nodeMap n = some i := by
  unfold processConn
  by_cases hc : c.chains.isEmpty <;> simp only [hc, if_pos, if_neg, if_true,
    if_false, Bool.false_eq_true, not_false_iff]
  · exact h
  · exact addNode_preserve (addNode_preserve (addNode_preserve
      (addNode_preserve h _ _) _ _) _ _) _ _

theorem processConn_linkVal_mono (st : AggState) (c : Conn) (k : Nat × Nat) :
    linkVal st k ≤ linkVal (processConn st c) k := by
  unfold processConn
  by_cases hc : c.chains.isEmpty <;> simp only [hc, if_true, if_false,
    Bool.false_eq_true, linkVal]
  · exact le_refl _
  · simp only [addNode_linkMap]
    calc (aGet st.linkMap k).getD 0
        ≤ (aGet (bumpLink st.linkMap _) k).getD 0 := val_bumpLink_le _ _ _
      _ ≤ (aGet (bumpLink (bumpLink st.linkMap _) _) k).getD 0 :=
          val_bumpLink_le _ _ _
      _ ≤ _ := val_bumpLink_le _ _ _

theorem processConn_singleton {st : AggState} {c : Conn} {name : String}
    (hc : c.chains = [name]) :
    ∃ i, aGet (processConn st c).nodeMap name = some i ∧
      linkVal st (i, i) + 1 ≤ linkVal (processConn st c) (i, i) ∧
      (aGet st.nodeMap name = none ∨ aGet st.nodeMap name = some i) := by
  unfold processConn
  rw [hc]
  simp only [List.isEmpty_cons, List.getLastD_cons, List.getLastD_nil,
    List.headD_cons, Bool.false_eq_true, if_false]
  set r1 := addNode st (effSourceIP c) 0 with hr1
  set r2 := addNode r1.2 (effRule c) 1 with hr2
  set r3 := addNode r2.2 name 2 with hr3
  have h3 : aGet r3.2.nodeMap name = some r3.1 := addNode_aGet_self r2.2 name 2
  have hr4 : addNode r3.2 name 3 = (r3.1, r3.2) := addNode_of_aGet_some h3 3
  rw [hr4]
  have hlm : r3.2.linkMap = st.linkMap := by
    rw [hr3, hr2, hr1]
    simp only [addNode_linkMap]
  refine ⟨r3.1, h3, ?_, ?_⟩
  · simp only [linkVal, hlm]
    have hb1 : (aGet st.linkMap (r3.1, r3.1)).getD 0 ≤
        (aGet (bumpLink st.linkMap (r1.1, r2.1)) (r3.1, r3.1)).getD 0 :=
      val_bumpLink_le _ _ _
    have hb2 : (aGet (bumpLink st.linkMap (r1.1, r2.1)) (r3.1, r3.1)).getD 0 ≤
        (aGet (bumpLink (bumpLink st.linkMap (r1.1, r2.1)) (r2.1, r3.1))
          (r3.1, r3.1)).getD 0 :=
      val_bumpLink_le _ _ _
    have hb3 := aGet_bumpLink_self
      (bumpLink (bumpLink st.linkMap (r1.1, r2.1)) (r2.1, r3.1)) (r3.1, r3.1)
    rw [hb3]
    simp only [Option.getD_some]
    omega
  · rcases hlook : aGet st.nodeMap name with _ | j
    · exact .inl rfl
    · refine .inr ?_
      have hj2 : aGet r2.2.nodeMap name = some j := by
        rw [hr2, hr1]
        exact addNode_preserve (addNode_preserve hlook _ _) _ _
      have : r3 = (j, r2.2) := by rw [hr3]; exact addNode_of_aGet_some hj2 2
      rw [this]

theorem countSingleton_cons (c : Conn) (rest : List Conn) (name : String) :
    countSingleton (c :: rest) name =
      (if c.chains = [name] then 1 else 0) + countSingleton rest name := by
  simp only [countSingleton, List.countP_cons]
  by_cases hc : c.chains = [name]
  · simp [hc]
    omega
  · simp [hc]

theorem foldl_linkVal_count {name : String} :
    ∀ (l : List Conn) (st : AggState) (i : Nat),
      aGet st.nodeMap name = some i →
      linkVal st (i, i) + countSingleton l name ≤
          linkVal (l.foldl processConn st) (i, i) ∧
        aGet (l.foldl processConn st).nodeMap name = some i := by
  intro l
  induction l with
  | nil => intro st i h; simp [countSingleton, h]
  | cons c rest ih =>
    intro st i h
    rw [List.foldl_cons, countSingleton_cons]
    by_cases hc : c.chains = [name]
    · obtain ⟨j, hj_get, hj_val, hj_old⟩ := @processConn_singleton st c name hc
      have hij : j = i := by
        rcases hj_old with h0 | h0
        · rw [h0] at h; exact Option.noConfusion h
        · rw [h0] at h; exact Option.some.inj h
      subst hij
      obtain ⟨h1, h2⟩ := ih (processConn st c) j hj_get
      refine ⟨?_, h2⟩
      simp only [hc, if_pos]
      omega
    · obtain ⟨h1, h2⟩ := ih (processConn st c) i
        (processConn_nodeGet_preserve h c)
      have hmono := processConn_linkVal_mono st c (i, i)
      refine ⟨?_, h2⟩
      simp only [hc, if_neg, if_false]
      omega

theorem foldl_singleton_exists {name : String} :
    ∀ (l : List Conn) (st : AggState),
      1 ≤ countSingleton l name →
      ∃ i, aGet (l.foldl processConn st).nodeMap name = some i ∧
        countSingleton l name ≤ linkVal (l.foldl processConn st) (i, i) := by
  intro l
  induction l with
  | nil => intro st h; simp [countSingleton] at h
  | cons c rest ih =>
    intro st _
    rw [List.foldl_cons]
    by_cases hc : c.chains = [name]
    · obtain ⟨i, hget, hval, _⟩ := @processConn_singleton st c name hc
      obtain ⟨h1, h2⟩ := foldl_linkVal_count rest (processConn st c) i hget
      refine ⟨i, h2, ?_⟩
      rw [countSingleton_cons]
      simp only [hc, if_pos]
      omega
    · by_cases hrest : 1 ≤ countSingleton rest name
      · obtain ⟨i, hget, hval⟩ := ih (processConn st c) hrest
        refine ⟨i, hget, ?_⟩
        rw [countSingleton_cons]
        simp only [hc, if_neg, if_false]
        omega
      · next hcount =>
        rw [countSingleton_cons] at hcount
        simp only [hc, if_neg, if_false] at hcount
        omega

theorem nodesWF_init : nodesWF initAggState := by
  refine ⟨?_, ?_⟩ <;> simp [initAggState]

theorem addNode_wf {st : AggState} (h : nodesWF st) (n : String) (l : Nat) :
    nodesWF (addNode st n l).2 := by
  unfold addNode
  split
  · exact h
  · next hnone =>
    obtain ⟨hids, hkeys⟩ := h
    refine ⟨?_, ?_⟩
    · show (aSet st.nodeMap n st.nodeIndex).map Prod.snd =
        List.range (st.nodeIndex + 1)
      rw [aSet_of_aGet_none hnone]
      simp [hids, List.range_succ]
    · show ((aSet st.nodeMap n st.nodeIndex).map Prod.fst).Nodup
      exact keys_aSet_nodup hkeys n st.nodeIndex

theorem processConn_wf {st : AggState} (h : nodesWF st) (c : Conn) :
    nodesWF (processConn st c) := by
  unfold processConn
  by_cases hc : c.chains.isEmpty <;> simp only [hc, if_true, if_false,
    Bool.false_eq_true]
  · exact h
  · exact addNode_wf (addNode_wf (addNode_wf (addNode_wf h _ _) _ _) _ _) _ _

theorem foldl_wf : ∀ (l : List Conn) (st : AggState), nodesWF st →
    nodesWF (l.foldl processConn st) := by
  intro l
  induction l with
  | nil => intro st h; exact h
  | cons c rest ih => intro st h; exact ih _ (processConn_wf h c)

theorem aggState_wf (conns : List Conn) : nodesWF (aggState conns) :=
  foldl_wf conns initAggState nodesWF_init

theorem bumpLink_keys_nodup {m : List ((Nat × Nat) × Nat)}
    (h : (m.map Prod.fst).Nodup) (k : Nat × Nat) :
    ((bumpLink m k).map Prod.fst).Nodup :=
  keys_aSet_nodup h k _

theorem processConn_linkKeys_nodup {st : AggState}
    (h : (st.linkMap.map Prod.fst).Nodup) (c : Conn) :
    ((processConn st c).linkMap.map Prod.fst).Nodup := by
  unfold processConn
  by_cases hc : c.chains.isEmpty <;> simp only [hc, if_true, if_false,
    Bool.false_eq_true]
  · exact h
  · simp only [addNode_linkMap]
    exact bumpLink_keys_nodup (bumpLink_keys_nodup (bumpLink_keys_nodup h _) _) _

theorem foldl_linkKeys_nodup : ∀ (l : List Conn) (st : AggState),
    (st.linkMap.map Prod.fst).Nodup →
    ((l.foldl processConn st).linkMap.map Prod.fst).Nodup := by
  intro l
  induction l with
  | nil => intro st h; exact h
  | cons c rest ih => intro st h; exact ih _ (processConn_linkKeys_nodup h c)

theorem bumpLink_vals_pos {m : List ((Nat × Nat) × Nat)}
    (h : ∀ p ∈ m, 1 ≤ p.2) (k : Nat × Nat) :
    ∀ p ∈ bumpLink m k, 1 ≤ p.2 := by
  intro p hp
  rcases mem_aSet hp with h0 | h0
  · rw [h0]
    omega
  · exact h p h0

theorem processConn_linkVals_pos {st : AggState}
    (h : ∀ p ∈ st.linkMap, 1 ≤ p.2) (c : Conn) :
    ∀ p ∈ (processConn st c).linkMap, 1 ≤ p.2 := by
  unfold processConn
  by_cases hc : c.chains.isEmpty <;> simp only [hc, if_true, if_false,
    Bool.false_eq_true]
  · exact h
  · simp only [addNode_linkMap]
    exact bumpLink_vals_pos (bumpLink_vals_pos (bumpLink_vals_pos h _) _) _

theorem foldl_linkVals_pos : ∀ (l : List Conn) (st : AggState),
    (∀ p ∈ st.linkMap, 1 ≤ p.2) →
    ∀ p ∈ (l.foldl processConn st).linkMap, 1 ≤ p.2 := by
  intro l
  induction l with
  | nil => intro st h; exact h
  | cons c rest ih => intro st h; exact ih _ (processConn_linkVals_pos h c)

theorem foldl_empty_chains : ∀ (l : List Conn) (st : AggState),
    (∀ c ∈ l, c.chains = []) → l.foldl processConn st = st := by
  intro l
  induction l with
  | nil => intro st _; rfl
  | cons c rest ih =>
    intro st h
    rw [List.foldl_cons]
    have hc : c.chains = [] := h c (by simp)
    have hpc : processConn st c = st := by
      unfold processConn
      rw [hc]
      simp
    rw [hpc]
    exact ih st fun d hd => h d (by simp [hd])

/-! ## Visibility-selector lemmas -/

theorem visFold_spec :
    ∀ (l : List (MenuKey × ℚ)) (m₀ : ℚ) (w₀ : Option MenuKey),
      m₀ ≤ (l.foldl visStep (m₀, w₀)).1 ∧
        (∀ p ∈ l, p.2 ≤ (l.foldl visStep (m₀, w₀)).1) ∧
        (((l.foldl visStep (m₀, w₀)).1 = m₀ ∧
            (l.foldl visStep (m₀, w₀)).2 = w₀) ∨
          ∃ p ∈ l, (l.foldl visStep (m₀, w₀)).2 = some p.1 ∧
            (l.foldl visStep (m₀, w₀)).1 = p.2) := by
  intro l
  induction l with
  | nil =>
    intro m₀ w₀
    exact ⟨le_refl _, by simp, .inl ⟨rfl, rfl⟩⟩
  | cons e rest ih =>
    intro m₀ w₀
    rw [List.foldl_cons]
    by_cases h : e.2 > m₀
    · have hstep : visStep (m₀, w₀) e = (e.2, some e.1) := by
        simp [visStep, h]
      rw [hstep]
      obtain ⟨ih1, ih2, ih3⟩ := ih e.2 (some e.1)
      refine ⟨le_trans (le_of_lt h) ih1, ?_, ?_⟩
      · intro p hp
        rcases List.mem_cons.1 hp with hp | hp
        · rw [hp]; exact ih1
        · exact ih2 p hp
      · rcases ih3 with ⟨h1, h2⟩ | ⟨p, hp, h1, h2⟩
        · exact .inr ⟨e, by simp, h2, h1⟩
        · exact .inr ⟨p, by simp [hp], h1, h2⟩
    · have hstep : visStep (m₀, w₀) e = (m₀, w₀) := by
        simp [visStep, h]
      rw [hstep]
      obtain ⟨ih1, ih2, ih3⟩ := ih m₀ w₀
      refine ⟨ih1, ?_, ?_⟩
      · intro p hp
        rcases List.mem_cons.1 hp with hp | hp
        · rw [hp]; exact le_trans (not_lt.1 h) ih1
        · exact ih2 p hp
      · rcases ih3 with h3 | ⟨p, hp, h1, h2⟩
        · exact .inl h3
        · exact .inr ⟨p, by simp [hp], h1, h2⟩

theorem applyIE_bounds {m : List (MenuKey × ℚ)}
    (hm : ∀ p ∈ m, 0 < p.2 ∧ p.2 ≤ 1) {k : MenuKey} {r : ℚ}
    (hr : 0 ≤ r ∧ r ≤ 1) :
    ∀ p ∈ applyIntersectionEntry m k r, 0 < p.2 ∧ p.2 ≤ 1 := by
  intro p hp
  unfold applyIntersectionEntry at hp
  by_cases h : r > 0
  · rw [if_pos h] at hp
    rcases mem_aSet hp with h0 | h0
    · rw [h0]
      exact ⟨h, hr.2⟩
    · exact hm p h0
  · rw [if_neg h] at hp
    exact hm p (mem_aDelete hp)

theorem foldl_applyIE_bounds :
    ∀ (evs : List (Nat × MenuKey × ℚ)) (m : List (MenuKey × ℚ)),
      (∀ p ∈ m, 0 < p.2 ∧ p.2 ≤ 1) →
      (∀ e ∈ evs, 0 ≤ e.2.2 ∧ e.2.2 ≤ 1) →
      ∀ p ∈ evs.foldl (fun m e => applyIntersectionEntry m e.2.1 e.2.2) m,
        0 < p.2 ∧ p.2 ≤ 1 := by
  intro evs
  induction evs with
  | nil => intro m hm _; exact hm
  | cons e rest ih =>
    intro m hm hev
    rw [List.foldl_cons]
    exact ih _ (applyIE_bounds hm (hev e (by simp)))
      fun d hd => hev d (by simp [hd])

/-! ## Debounce-trace lemmas -/

theorem quietRun :
    ∀ (es : List (Nat × MenuKey × ℚ)) (t : Nat) (s : TimedState),
      s.pending = some (t + 100) → withinQuiet t es →
      (es.foldl stepEvent s).recomputed = s.recomputed ∧
        (es.foldl stepEvent s).ratios =
          es.foldl (fun m e => applyIntersectionEntry m e.2.1 e.2.2) s.ratios ∧
        ∃ tl, (es.foldl stepEvent s).pending = some (tl + 100) := by
  intro es
  induction es with
  | nil => intro t s hp _; exact ⟨rfl, rfl, t, hp⟩
  | cons e rest ih =>
    intro t s hp hq
    obtain ⟨⟨hle, hlt⟩, hq2⟩ := hq
    rw [List.foldl_cons, List.foldl_cons]
    have hfire : fireIfDue s e.1 = s := by
      unfold fireIfDue
      rw [hp]
      simp only []
      rw [if_neg (by omega)]
    have hpend : (stepEvent s e).pending = some (e.1 + 100) := rfl
    have hrec : (stepEvent s e).recomputed = s.recomputed := by
      unfold stepEvent debouncedUpdateActiveMenu
      rw [hfire]
    have hrat : (stepEvent s e).ratios =
        applyIntersectionEntry s.ratios e.2.1 e.2.2 := by
      unfold stepEvent debouncedUpdateActiveMenu
      rw [hfire]
    obtain ⟨i1, i2, i3⟩ := ih e.1 (stepEvent s e) hpend hq2
    exact ⟨by rw [i1, hrec], by rw [i2, hrat], i3⟩

/-! ## Role-lookup lemma -/

theorem nodeTypeLoop_findSome :
    ∀ (conns : List Conn) (name : String),
      nodeTypeLoop name conns =
        ((conns.findSome? fun c => connRole c name).getD .unknownRole) := by
  intro conns
  induction conns with
  | nil => intro name; simp [nodeTypeLoop, List.findSome?]
  | cons c rest ih =>
    intro name
    by_cases hc : c.chains = []
    · have hcr : connRole c name = none := by
        unfold connRole
        rw [hc]
        rfl
      have hLHS : nodeTypeLoop name (c :: rest) = nodeTypeLoop name rest := by
        rw [nodeTypeLoop, hc]
        rfl
      rw [hLHS, ih name, List.findSome?_cons, hcr]
    · have hce : c.chains.isEmpty = false := by
        cases hl : c.chains with
        | nil => exact absurd hl hc
        | cons a as => rfl
      by_cases h1 : name = effSourceIP c
      · have hcr : connRole c name = some .sourceIPAddress := by
          unfold connRole
          rw [hce]
          simp only [Bool.false_eq_true, if_false]
          rw [if_pos h1]
        have hLHS : nodeTypeLoop name (c :: rest) = .sourceIPAddress := by
          rw [nodeTypeLoop, hce]
          simp only [Bool.false_eq_true, if_false]
          rw [if_pos h1]
        rw [hLHS, List.findSome?_cons, hcr]
        rfl
      · by_cases h2 : name = effRule c
        · have hcr : connRole c name = some .ruleMatch := by
            unfold connRole
            rw [hce]
            simp only [Bool.false_eq_true, if_false]
            rw [if_neg h1, if_pos h2]
          have hLHS : nodeTypeLoop name (c :: rest) = .ruleMatch := by
            rw [nodeTypeLoop, hce]
            simp only [Bool.false_eq_true, if_false]
            rw [if_neg h1, if_pos h2]
          rw [hLHS, List.findSome?_cons, hcr]
          rfl
        · by_cases h3 : name = c.chains.getLastD ""
          · have hcr : connRole c name = some .proxyChainEntry := by
              unfold connRole
              rw [hce]
              simp only [Bool.false_eq_true, if_false]
              rw [if_neg h1, if_neg h2, if_pos h3]
            have hLHS : nodeTypeLoop name (c :: rest) = .proxyChainEntry := by
              rw [nodeTypeLoop, hce]
              simp only [Bool.false_eq_true, if_false]
              rw [if_neg h1, if_neg h2, if_pos h3]
            rw [hLHS, List.findSome?_cons, hcr]
            rfl
          · by_cases h4 : name = c.chains.headD ""
            · have hcr : connRole c name = some .proxyChainExit := by
                unfold connRole
                rw [hce]
                simp only [Bool.false_eq_true, if_false]
                rw [if_neg h1, if_neg h2, if_neg h3, if_pos h4]
              have hLHS : nodeTypeLoop name (c :: rest) = .proxyChainExit := by
                rw [nodeTypeLoop, hce]
                simp only [Bool.false_eq_true, if_false]
                rw [if_neg h1, if_neg h2, if_neg h3, if_pos h4]
              rw [hLHS, List.findSome?_cons, hcr]
              rfl
            · have hcr : connRole c name = none := by
                unfold connRole
                rw [hce]
                simp only [Bool.false_eq_true, if_false]
                rw [if_neg h1, if_neg h2, if_neg h3, if_neg h4]
              have hLHS : nodeTypeLoop name (c :: rest) =
                  nodeTypeLoop name rest := by
                rw [nodeTypeLoop, hce]
                simp only [Bool.false_eq_true, if_false]
                rw [if_neg h1, if_neg h2, if_neg h3, if_neg h4]
              rw [hLHS, ih name, List.findSome?_cons, hcr]

/-! ## Menu-index lemmas -/

theorem findMenuIndex_head {keys : List MenuKey} {k₀ : MenuKey}
    (h : keys.head? = some k₀) : findMenuIndex keys k₀ = some 0 := by
  cases keys with
  | nil => simp at h
  | cons k rest =>
    simp at h
    simp [findMenuIndex, h]

theorem findMenuIndex_cons (k active : MenuKey) (rest : List MenuKey) :
    findMenuIndex (k :: rest) active =
      if k = active then some 0 else (findMenuIndex rest active).map (· + 1) := by
  rw [findMenuIndex]

theorem findMenuIndex_getLast :
    ∀ {keys : List MenuKey} {kL : MenuKey}, keys.Nodup →
      keys.getLast? = some kL →
      findMenuIndex keys kL = some (keys.length - 1) := by
  intro keys
  induction keys with
  | nil => intro kL _ h; simp at h
  | cons k rest ih =>
    intro kL hnd hlast
    cases rest with
    | nil =>
      simp [List.getLast?] at hlast
      simp [findMenuIndex, hlast]
    | cons k2 rest2 =>
      rw [List.getLast?_cons_cons] at hlast
      have hmem : kL ∈ k2 :: rest2 := by
        have hne : k2 :: rest2 ≠ [] := by simp
        rw [List.getLast?_eq_getLast _ hne] at hlast
        have := List.getLast_mem hne
        rw [Option.some.inj hlast] at this
        exact this
      have hkne : k ≠ kL := by
        intro he
        subst he
        exact (List.nodup_cons.1 hnd).1 hmem
      have ihv := ih (List.nodup_cons.1 hnd).2 hlast
      rw [findMenuIndex_cons, if_neg hkne, ihv, Option.map_some']
      simp only [List.length_cons]
      congr 1

theorem getD_zero_of_head {keys : List MenuKey} {k₀ : MenuKey}
    (h : keys.head? = some k₀) (d : MenuKey) : keys.getD 0 d = k₀ := by
  cases keys with
  | nil => simp at h
  | cons k rest =>
    simp at h
    simp [h]

theorem getD_last_of_getLast :
    ∀ {keys : List MenuKey} {kL : MenuKey}, keys.getLast? = some kL →
      ∀ d, keys.getD (keys.length - 1) d = kL := by
  intro keys
  induction keys with
  | nil => intro kL h; simp at h
  | cons k rest ih =>
    intro kL hlast d
    cases rest with
    | nil =>
      simp [List.getLast?] at hlast
      simp [hlast]
    | cons k2 rest2 =>
      rw [List.getLast?_cons_cons] at hlast
      have hlen : (k :: k2 :: rest2).length - 1 =
          ((k2 :: rest2).length - 1) + 1 := by
        simp
      rw [hlen, List.getD_cons_succ]
      exact ih hlast d


/-! ## Claim theorems -/

/-- C1 (counterexample): the claim maps the LAST chain element to the
chain-exit role and the FIRST to the chain-entry role (`specRoleOf`), but on
the record `⟨"1.2.3.4", "r", "", ["a", "b"]⟩` the code's `getNodeTypeName`
returns the chain-ENTRY label for the last element `"b"`, the opposite of
what the claim states. -/
theorem C1_counterexample :
    getNodeTypeName [recTwoHop] "b" = RoleLabel.proxyChainEntry ∧
      specRoleOf "b" [recTwoHop] = RoleLabel.proxyChainExit ∧
      RoleLabel.proxyChainEntry ≠ RoleLabel.proxyChainExit := by
  decide

/-- C1 (amended): `getNodeTypeName` scans the connection list in input order
with first match winning and returns the Unknown sentinel when no connection
reproduces the name — but the LAST element of a chain yields the chain-entry
label and the FIRST element the chain-exit label (the reverse of the claim's
assignment): the lookup equals the first `connRole` hit, defaulted to
`unknownRole`. -/
theorem C1_role_lookup_amended (conns : List Conn) (name : String) :
    getNodeTypeName conns name =
      ((conns.findSome? fun c => connRole c name).getD .unknownRole) := by
  cases conns with
  | nil => simp [getNodeTypeName, List.findSome?]
  | cons c rest =>
    rw [getNodeTypeName]
    simp only [List.isEmpty_cons, Bool.false_eq_true, if_false]
    exact nodeTypeLoop_findSome (c :: rest) name

/-- C1 witness: the amended lookup theorem applied to a concrete record. -/
theorem C1_witness :
    getNodeTypeName [recTwoHop] "a" =
      (([recTwoHop].findSome? fun c => connRole c "a").getD .unknownRole) :=
  C1_role_lookup_amended [recTwoHop] "a"

/-- C2 (counterexample): after one observation event at time 0 schedules the
debounce, replacing the observers clears the ratios but leaves the timer
pending, and letting the clock run fires the recomputation — the claim says
the pending recomputation is cancelled and never fires. -/
theorem C2_counterexample :
    (setupIntersectionObservers
        (stepEvent (initState .general) (0, .general, 1))).pending =
      some 100 ∧
      (flushTimer (setupIntersectionObservers
          (stepEvent (initState .general) (0, .general, 1)))).recomputed =
        [[]] ∧
      ([[]] : List (List (MenuKey × ℚ))) ≠ [] := by
  refine ⟨rfl, rfl, by decide⟩

/-- C2 (amended): replacing the observed key set clears all prior visibility
entries but does NOT cancel a pending debounced recomputation: the pending
timer survives the replacement, and when it later fires it recomputes over
the cleared (empty) map, which selects nothing and leaves the active menu
unchanged. -/
theorem C2_observer_reset_amended (s : TimedState) (t d : Nat) :
    (setupIntersectionObservers s).ratios = [] ∧
      (setupIntersectionObservers s).pending = s.pending ∧
      (s.pending = some d → d ≤ t →
        (fireIfDue (setupIntersectionObservers s) t).recomputed =
            s.recomputed ++ [[]] ∧
          (fireIfDue (setupIntersectionObservers s) t).active = s.active) := by
  refine ⟨rfl, rfl, fun hp hd => ?_⟩
  unfold fireIfDue setupIntersectionObservers
  simp only [hp]
  rw [if_pos hd]
  exact ⟨rfl, rfl⟩

/-- C2 witness: the amended theorem at a concrete post-event state. -/
theorem C2_witness :
    (setupIntersectionObservers
        (stepEvent (initState .general) (0, .general, 1))).ratios = [] ∧
      (setupIntersectionObservers
          (stepEvent (initState .general) (0, .general, 1))).pending =
        (stepEvent (initState .general) (0, .general, 1)).pending ∧
      (fireIfDue (setupIntersectionObservers
          (stepEvent (initState .general) (0, .general, 1))) 200).recomputed =
        (stepEvent (initState .general) (0, .general, 1)).recomputed ++ [[]] ∧
      (fireIfDue (setupIntersectionObservers
          (stepEvent (initState .general) (0, .general, 1))) 200).active =
        (stepEvent (initState .general) (0, .general, 1)).active := by
  have h := C2_observer_reset_amended
    (stepEvent (initState .general) (0, .general, 1)) 200 100
  exact ⟨h.1, h.2.1, (h.2.2 rfl (by decide)).1, (h.2.2 rfl (by decide)).2⟩

/-- C3: the most-visible decision returns none on the empty map and whenever
every ratio is below the 0.3 threshold; any returned key carries a ratio that
is at least 0.3 and is a maximum of the map; and on the claim's concrete
examples `{A: 0.25, B: 0.35}` selects B, `{A: 0.25}` selects none, and the
exact tie `{A: 0.5, B: 0.5}` (inserted A then B) selects A. -/
theorem C3_most_visible :
    updateActiveMenuByVisibility [] = none ∧
      (∀ entries, (∀ p ∈ entries, p.2 < 3/10) →
        updateActiveMenuByVisibility entries = none) ∧
      (∀ entries k, updateActiveMenuByVisibility entries = some k →
        ∃ r, (k, r) ∈ entries ∧ 3/10 ≤ r ∧ ∀ p ∈ entries, p.2 ≤ r) ∧
      updateActiveMenuByVisibility
        [(.general, 1/4), (.backend, 7/20)] = some .backend ∧
      updateActiveMenuByVisibility [(.general, 1/4)] = none ∧
      updateActiveMenuByVisibility
        [(.general, 1/2), (.backend, 1/2)] = some .general := by
  refine ⟨rfl, ?_, ?_, ?_, ?_, ?_⟩
  · intro entries h
    obtain ⟨h1, h2, h3⟩ := visFold_spec entries 0 none
    simp only [updateActiveMenuByVisibility]
    rcases hp : (entries.foldl visStep (0, none)).2 with _ | k
    · simp only [hp]
    · simp only [hp]
      rcases h3 with ⟨hm, hw⟩ | ⟨q, hq, hw, hm⟩
      · rw [hp] at hw
        exact Option.noConfusion hw
      · have hlt : (entries.foldl visStep ((0 : ℚ), (none : Option MenuKey))).1
            < 3/10 := by
          rw [hm]
          exact h q hq
        rw [if_neg (not_le.2 hlt)]
  · intro entries k hsel
    obtain ⟨h1, h2, h3⟩ := visFold_spec entries 0 none
    simp only [updateActiveMenuByVisibility] at hsel
    rcases hp : (entries.foldl visStep (0, none)).2 with _ | k2
    · simp only [hp] at hsel
      exact Option.noConfusion hsel
    · simp only [hp] at hsel
      by_cases ht : (3 : ℚ)/10 ≤
          (entries.foldl visStep ((0 : ℚ), (none : Option MenuKey))).1
      · rw [if_pos ht] at hsel
        have hk : k2 = k := Option.some.inj hsel
        rcases h3 with ⟨hm, hw⟩ | ⟨q, hq, hw, hm⟩
        · rw [hp] at hw
          exact Option.noConfusion hw
        · rw [hp] at hw
          have hq1 : q.1 = k := by rw [← hk]; exact (Option.some.inj hw).symm
          refine ⟨q.2, ?_, ?_, ?_⟩
          · rw [← hq1]
            exact hq
          · rw [← hm]
            exact ht
          · intro p hpmem
            rw [← hm]
            exact h2 p hpmem
      · rw [if_neg ht] at hsel
        exact Option.noConfusion hsel
  · norm_num [updateActiveMenuByVisibility, visStep]
  · norm_num [updateActiveMenuByVisibility, visStep]
  · norm_num [updateActiveMenuByVisibility, visStep]

/-- C3 witness: the below-threshold branch of the decision theorem applied to
the empty map. -/
theorem C3_witness : updateActiveMenuByVisibility [] = none :=
  C3_most_visible.2.1 [] (by simp)

/-- C4: edges are accumulated per ordered `(source, target)` pair — the link
list never contains two edges with the same ordered pair, every edge carries
weight at least 1, two records producing the same source→rule pair yield that
edge with weight exactly 2, and a third record over different names leaves it
unchanged. -/
theorem C4_edge_accumulation :
    (∀ conns, (((sankeyData conns).links.map
      fun l => (l.source, l.target)).Nodup)) ∧
      (∀ conns, ∀ l ∈ (sankeyData conns).links, 1 ≤ l.value) ∧
      (sankeyData [connA, connA]).links.headD ⟨0, 0, 0⟩ = ⟨0, 1, 2⟩ ∧
      (sankeyData [connA, connA, connB]).links.headD ⟨0, 0, 0⟩ = ⟨0, 1, 2⟩ := by
  refine ⟨?_, ?_, by decide, by decide⟩
  · intro conns
    by_cases he : conns.isEmpty
    · simp [sankeyData, he]
    · simp only [sankeyData, he, Bool.false_eq_true, if_false]
      rw [List.map_map]
      have hfe : ((fun l : SLink => (l.source, l.target)) ∘
          fun p : (Nat × Nat) × Nat => (⟨p.1.1, p.1.2, p.2⟩ : SLink)) =
          Prod.fst := by
        funext p
        simp
      rw [hfe]
      exact foldl_linkKeys_nodup conns initAggState (by simp [initAggState])
  · intro conns l hl
    by_cases he : conns.isEmpty
    · simp [sankeyData, he] at hl
    · simp only [sankeyData, he, Bool.false_eq_true, if_false,
        List.mem_map] at hl
      obtain ⟨p, hp, hpl⟩ := hl
      have := foldl_linkVals_pos conns initAggState (by simp [initAggState])
        p hp
      rw [← hpl]
      exact this

/-- C4 witness: the pair-uniqueness and weight conjuncts at concrete
inputs. -/
theorem C4_witness :
    (((sankeyData [connA, connA, connB]).links.map
      fun l => (l.source, l.target)).Nodup) ∧
      1 ≤ (SLink.mk 0 1 2).value :=
  ⟨C4_edge_accumulation.1 [connA, connA, connB],
    C4_edge_accumulation.2.1 [connA, connA] ⟨0, 1, 2⟩ (by decide)⟩

/-- C5: node identity is first-seen-wins — node names in the output are
pairwise distinct, ids listed in registry order are exactly `0, 1, …, n-1`
(dense, 0-based, in first-encounter order), and on the concrete input where
`"X"` first appears as a rule label (layer 1) and later as a chain entry,
the output has a single `"X"` node keeping id 1 and the layer-1 color, with
the layer registry still mapping `"X"` to 1. -/
theorem C5_node_identity :
    (∀ conns, (((sankeyData conns).nodes.map SNode.name).Nodup) ∧
      (sankeyData conns).nodes.map SNode.id =
        List.range (sankeyData conns).nodes.length) ∧
      (sankeyData [recRuleX, recChainX]).nodes.filter
        (fun n => n.name = "X") = [⟨1, "X", "#91cc75"⟩] ∧
      aGet (aggState [recRuleX, recChainX]).layerMap "X" = some 1 := by
  refine ⟨?_, by decide, by decide⟩
  intro conns
  by_cases he : conns.isEmpty
  · simp [sankeyData, he]
  · obtain ⟨hids, hkeys⟩ := aggState_wf conns
    simp only [sankeyData, he, Bool.false_eq_true, if_false]
    constructor
    · rw [List.map_map]
      have hfe : (SNode.name ∘ fun p : String × Nat =>
          (⟨p.2, p.1, layerColors.getD
            ((aGet (aggState conns).layerMap p.1).getD 0) ""⟩ : SNode)) =
          Prod.fst := by
        funext p
        simp
      rw [hfe]
      exact hkeys
    · rw [List.map_map, List.length_map]
      have hfe : (SNode.id ∘ fun p : String × Nat =>
          (⟨p.2, p.1, layerColors.getD
            ((aGet (aggState conns).layerMap p.1).getD 0) ""⟩ : SNode)) =
          Prod.snd := by
        funext p
        simp
      rw [hfe, hids]
      have hlen : (aggState conns).nodeMap.length =
          (aggState conns).nodeIndex := by
        have := congrArg List.length hids
        simpa using this
      rw [hlen]

/-- C5 witness: uniqueness and dense-id conjuncts at a concrete input. -/
theorem C5_witness :
    (((sankeyData [connA]).nodes.map SNode.name).Nodup) ∧
      (sankeyData [connA]).nodes.map SNode.id =
        List.range (sankeyData [connA]).nodes.length :=
  C5_node_identity.1 [connA]

/-- C6: the empty connection list yields the empty graph, and so does any
list whose records all have empty chains — such records are skipped
entirely. -/
theorem C6_empty_input :
    sankeyData ([] : List Conn) = ⟨[], []⟩ ∧
      ∀ conns, (∀ c ∈ conns, c.chains = []) →
        sankeyData conns = ⟨[], []⟩ := by
  refine ⟨rfl, fun conns h => ?_⟩
  by_cases he : conns.isEmpty
  · simp [sankeyData, he]
  · simp only [sankeyData, he, Bool.false_eq_true, if_false]
    rw [aggState, foldl_empty_chains conns initAggState h]
    rfl

/-- C6 witness: a single chain-less record aggregates to the empty graph. -/
theorem C6_witness : sankeyData [⟨"", "r", "", []⟩] = ⟨[], []⟩ :=
  C6_empty_input.2 [⟨"", "r", "", []⟩] (by decide)

/-- C7: an observation with ratio above zero stores exactly that ratio, an
observation with ratio zero removes the key, and after any event sequence
whose ratios lie in [0, 1] every entry still present has a ratio in
(0, 1]. -/
theorem C7_ratio_invariant :
    (∀ m k r, 0 < r → aGet (applyIntersectionEntry m k r) k = some r) ∧
      (∀ m k, aGet (applyIntersectionEntry m k 0) k = none) ∧
      (∀ evs, (∀ e ∈ evs, 0 ≤ e.2.2 ∧ e.2.2 ≤ 1) →
        ∀ p ∈ applyAll evs, 0 < p.2 ∧ p.2 ≤ 1) := by
  refine ⟨?_, ?_, ?_⟩
  · intro m k r hr
    unfold applyIntersectionEntry
    rw [if_pos hr]
    exact aGet_aSet_self m k r
  · intro m k
    unfold applyIntersectionEntry
    rw [if_neg (lt_irrefl 0)]
    exact aGet_aDelete_self m k
  · intro evs h
    exact foldl_applyIE_bounds evs [] (by simp) h

/-- C7 witness: the store and invariant conjuncts at concrete events. -/
theorem C7_witness :
    aGet (applyIntersectionEntry [] MenuKey.general 1) MenuKey.general =
      some 1 ∧
      ∀ p ∈ applyAll [(0, MenuKey.general, 1)], 0 < p.2 ∧ p.2 ≤ 1 :=
  ⟨C7_ratio_invariant.1 [] MenuKey.general 1 (by decide),
    C7_ratio_invariant.2.2 [(0, MenuKey.general, 1)] (by decide)⟩

/-- C8: the debounce is single-flight — every observation event leaves
exactly one pending timer, due 100 units after the event — and a burst of
events each arriving within the quiet interval of its predecessor produces
exactly one recomputation, whose snapshot is the map after ALL the events. -/
theorem C8_debounce_single_flight :
    (∀ (s : TimedState) (t : Nat) (k : MenuKey) (r : ℚ),
      (stepEvent s (t, k, r)).pending = some (t + 100)) ∧
      (∀ (a : MenuKey) (e : Nat × MenuKey × ℚ) (es : List (Nat × MenuKey × ℚ)),
        withinQuiet e.1 es →
        (flushTimer (runTrace a (e :: es))).recomputed =
          [applyAll (e :: es)]) := by
  refine ⟨fun s t k r => rfl, fun a e es hq => ?_⟩
  have hrun : runTrace a (e :: es) =
      es.foldl stepEvent (stepEvent (initState a) e) := by
    rw [runTrace, List.foldl_cons]
  obtain ⟨q1, q2, tl, q3⟩ := quietRun es e.1 (stepEvent (initState a) e)
    rfl hq
  rw [hrun]
  unfold flushTimer
  simp only [q3]
  rw [q1, q2]
  rfl

/-- C8 witness: three events inside the quiet window collapse to one
recomputation over the final map. -/
theorem C8_witness :
    (stepEvent (initState .general) (0, .general, 1)).pending =
      some (0 + 100) ∧
      (flushTimer (runTrace .general
          [(0, .general, 1), (50, .backend, 1), (99, .general, 0)])).recomputed =
        [applyAll [(0, .general, 1), (50, .backend, 1), (99, .general, 0)]] :=
  ⟨C8_debounce_single_flight.1 (initState .general) 0 .general 1,
    C8_debounce_single_flight.2 .general (0, .general, 1)
      [(50, .backend, 1), (99, .general, 0)] (by decide)⟩

/-- C9: swipe navigation cycles modulo the menu length in both directions:
for any duplicate-free non-empty key list, "next" from the last key yields
the first and "previous" from the first key yields the last. -/
theorem C9_swipe_cycling (keys : List MenuKey) (k₀ kL : MenuKey)
    (hnd : keys.Nodup) (hh : keys.head? = some k₀)
    (hl : keys.getLast? = some kL) :
    getNextMenuKey keys kL = k₀ ∧ getPrevMenuKey keys k₀ = kL := by
  have hlen : 1 ≤ keys.length := by
    cases keys with
    | nil => simp at hh
    | cons k rest => simp
  constructor
  · unfold getNextMenuKey
    rw [findMenuIndex_getLast hnd hl]
    show keys.getD ((keys.length - 1 + 1) % keys.length) kL = k₀
    have h1 : keys.length - 1 + 1 = keys.length := by omega
    rw [h1, Nat.mod_self]
    exact getD_zero_of_head hh kL
  · unfold getPrevMenuKey
    rw [findMenuIndex_head hh]
    show keys.getD ((0 + keys.length - 1) % keys.length) k₀ = kL
    have h1 : (0 + keys.length - 1) % keys.length = keys.length - 1 := by
      rw [Nat.zero_add]
      exact Nat.mod_eq_of_lt (by omega)
    rw [h1]
    exact getD_last_of_getLast hl k₀

/-- C9 witness: on the display-order key list, "next" from the last key
(`overview`) is `general` and "previous" from `general` is `overview`. -/
theorem C9_witness :
    getNextMenuKey demoKeys MenuKey.overview = MenuKey.general ∧
      getPrevMenuKey demoKeys MenuKey.general = MenuKey.overview :=
  C9_swipe_cycling demoKeys .general .overview (by decide) rfl (by decide)

/-- C10 (counterexample): for the record whose source, rule and single chain
hop are all `"x"`, all three edges land on the self-loop pair `(0, 0)`, so
its weight is 3 while only one singleton-chain record shares that pair — the
claim's "weight equal to the number of such records" fails. -/
theorem C10_counterexample :
    (sankeyData [connX]).links = [⟨0, 0, 3⟩] ∧
      countSingleton [connX] "x" = 1 ∧ (3 : Nat) ≠ 1 := by
  refine ⟨by decide, by decide, by decide⟩

/-- C10 (amended): a record whose chain is the single element `name` has
coinciding chain-entry and chain-exit names and makes the aggregator emit a
self-loop edge at that name's node id, whose weight is AT LEAST the number of
records whose chain is exactly `[name]` (equality can fail when other edges
of some record land on the same pair). -/
theorem C10_self_loop_amended (conns : List Conn) (c : Conn) (name : String)
    (hmem : c ∈ conns) (hchain : c.chains = [name]) :
    c.chains.headD "" = c.chains.getLastD "" ∧
      ∃ i w, aGet (aggState conns).nodeMap name = some i ∧
        SLink.mk i i w ∈ (sankeyData conns).links ∧
        countSingleton conns name ≤ w := by
  refine ⟨by rw [hchain]; simp, ?_⟩
  have hcount : 1 ≤ countSingleton conns name := by
    rw [countSingleton]
    exact List.countP_pos_iff.2 ⟨c, hmem, by simp [hchain]⟩
  obtain ⟨i, hget, hval⟩ := foldl_singleton_exists conns initAggState hcount
  have hget2 : aGet (aggState conns).nodeMap name = some i := hget
  have hval2 : countSingleton conns name ≤ linkVal (aggState conns) (i, i) :=
    hval
  rcases hw : aGet (aggState conns).linkMap (i, i) with _ | w
  · have hz : linkVal (aggState conns) (i, i) = 0 := by
      rw [linkVal, hw]
      rfl
    omega
  · have hlv : linkVal (aggState conns) (i, i) = w := by
      rw [linkVal, hw]
      rfl
    have hne : conns.isEmpty = false := by
      cases conns with
      | nil => simp at hmem
      | cons a as => rfl
    refine ⟨i, w, hget2, ?_, ?_⟩
    · simp only [sankeyData, hne, Bool.false_eq_true, if_false,
        List.mem_map]
      exact ⟨((i, i), w), aGet_mem hw, rfl⟩
    · omega

/-- C10 witness: the amended self-loop theorem at the all-`"x"` record. -/
theorem C10_witness :
    connX.chains.headD "" = connX.chains.getLastD "" ∧
      ∃ i w, aGet (aggState [connX]).nodeMap "x" = some i ∧
        SLink.mk i i w ∈ (sankeyData [connX]).links ∧
        countSingleton [connX] "x" ≤ w :=
  C10_self_loop_amended [connX] connX "x" (by decide) (by decide)

end Zashboard